import Mathlib

/-
Shallow embedding of the workcafe crawl-and-reconcile pipeline
(src/app/crawler/kakao_crawler.py).

Modelling conventions:
- timestamps (`datetime`) are `Nat`;
- coordinates are `Int` (the source's `float(...)` coercion is the identity
  on an already-numeric value; float parsing is outside the claims);
- a raw API record (`place` dict) is a structure of `Option` fields: `none`
  models an absent key, so a `dict[...]` access that would raise `KeyError`
  becomes `Option.none` propagation, and `dict.get(key, "")` becomes `getD ""`;
- the MongoDB collection is a list of stored rows; `update_one(filter, ...,
  upsert=True)` updates the first row matching `kakao_id` or appends a new
  row; the `$setOnInsert` field `collected_at` is the extra per-row field;
- the network boundary `_fetch_page` is abstracted as a per-zone function
  `Nat → FetchOutcome` giving, for each page number, either the page's
  documents plus the `is_end` flag or a raised error (`httpx` errors and any
  other exception are caught identically by `_crawl_district`);
- `run` iterates a zone catalog; the catalog is a parameter (in the source it
  is the constant `SEOUL_DISTRICTS` list, and each zone's coordinates only
  influence behaviour through the abstracted fetch function);
- a possible store-side failure of `update_one` (the store rejecting a write,
  which in the source propagates out of `_upsert_cafes` into `run`'s
  per-district `except`) is modelled by an oracle `failAt : Option Nat`:
  the index in the batch at which the write raises, `none` for a store that
  never fails;
- `elapsed_sec` (wall-clock time) and logging are not modelled.
-/

def CAFE_CATEGORY_CODE : String := "CE7"

def MAX_PAGE : Nat := 45

/-- One raw record of the external API (the `place` dict of the source);
`none` marks a key absent from the response. -/
structure RawPlace where
  id : Option String
  place_name : Option String
  category_group_code : Option String
  category_name : Option String
  address_name : Option String
  road_address_name : Option String
  phone : Option String
  x : Option Int
  y : Option Int
  place_url : Option String
deriving DecidableEq, Repr

/-- A normalized record (the dict built by `_build_cafe_doc`). -/
structure CafeDoc where
  kakao_id : String
  name : String
  category_code : String
  category_name : String
  address : String
  road_address : String
  phone : String
  x : Int
  y : Int
  place_url : String
  district : String
  source : String
  updated_at : Nat
deriving DecidableEq, Repr

/-- `_build_cafe_doc(place, district_name, now)`: `place["id"]`,
`place["place_name"]`, `float(place["x"])`, `float(place["y"])` raise on a
missing key (modelled as `none`); the remaining fields default to `""`. -/
def build_cafe_doc (place : RawPlace) (district_name : String) (now : Nat) :
    Option CafeDoc :=
  match place.id, place.place_name, place.x, place.y with
  | some pid, some pname, some px, some py =>
      some { kakao_id := pid
             name := pname
             category_code := CAFE_CATEGORY_CODE
             category_name := place.category_name.getD ""
             address := place.address_name.getD ""
             road_address := place.road_address_name.getD ""
             phone := place.phone.getD ""
             x := px
             y := py
             place_url := place.place_url.getD ""
             district := district_name
             source := "kakao"
             updated_at := now }
  | _, _, _, _ => none

/-- A stored document of the `cafes` collection: the `$set` payload plus the
`$setOnInsert` field `collected_at` (the spec's `first_seen_at`). -/
structure StoredRow where
  doc : CafeDoc
  collected_at : Nat
deriving DecidableEq, Repr

abbrev Store := List StoredRow

/-- The store's lookup by the unique key: the first row whose `kakao_id`
matches (MongoDB's natural-order first match). -/
def findRow : Store → String → Option StoredRow
  | [], _ => none
  | r :: rest, k => if r.doc.kakao_id == k then some r else findRow rest k

/-- `update_one` with a match: `$set` overwrites every field of the first
matching row except `collected_at` (`$setOnInsert` is a no-op on update). -/
def update_first : Store → CafeDoc → Store
  | [], _ => []
  | r :: rest, c =>
      if r.doc.kakao_id == c.kakao_id then
        { doc := c, collected_at := r.collected_at } :: rest
      else r :: update_first rest c

/-- One `col.update_one({"kakao_id": ...}, {"$set": cafe, "$setOnInsert":
{"collected_at": now}}, upsert=True)` where `now = cafe["updated_at"]`.
The returned flag is `true` iff `upserted_id is not None` (an insert). -/
def upsert_one (s : Store) (c : CafeDoc) : Store × Bool :=
  match findRow s c.kakao_id with
  | some _ => (update_first s c, false)
  | none => (s ++ [{ doc := c, collected_at := c.updated_at }], true)

/-- `_upsert_cafes`: upsert each record of the batch in order, counting
`(inserted, updated)`. -/
def upsert_cafes : Store → List CafeDoc → Store × Nat × Nat
  | s, [] => (s, 0, 0)
  | s, c :: rest =>
      let t := upsert_one s c
      let r := upsert_cafes t.1 rest
      if t.2 then (r.1, r.2.1 + 1, r.2.2) else (r.1, r.2.1, r.2.2 + 1)

/-- Outcome of one `_fetch_page` call: the page's `documents` and the
`is_end` flag, or a raised error (HTTP status error, transport error, …). -/
inductive FetchOutcome where
  | ok (docs : List RawPlace) (is_end : Bool)
  | err
deriving DecidableEq, Repr

/-- The pagination loop of `_crawl_district`: `for page in range(1, MAX_PAGE
+ 1)`, extending `places` with each page's documents, stopping on `is_end`
or on any fetch error (both `except` arms `break`). -/
def crawl_pages_aux (fetch : Nat → FetchOutcome) :
    Nat → Nat → List RawPlace → List RawPlace
  | 0, _, acc => acc
  | fuel + 1, page, acc =>
      match fetch page with
      | .ok docs is_end =>
          if is_end then acc ++ docs
          else crawl_pages_aux fetch fuel (page + 1) (acc ++ docs)
      | .err => acc

def crawl_pages (fetch : Nat → FetchOutcome) : List RawPlace :=
  crawl_pages_aux fetch MAX_PAGE 1 []

/-- The dedup-and-normalize pass of `_crawl_district`: for each accumulated
place in fetch order, `p["id"]` is read (raising on a missing key), already
seen ids are skipped, and a first occurrence is normalized via
`_build_cafe_doc`; the output preserves first-occurrence order
(`list(seen.values())` of an insertion-ordered dict). -/
def dedup_build (name : String) (now : Nat) :
    List RawPlace → List String → Option (List CafeDoc)
  | [], _ => some []
  | p :: rest, seen =>
      match p.id with
      | none => none
      | some pid =>
          if pid ∈ seen then dedup_build name now rest seen
          else
            match build_cafe_doc p name now with
            | none => none
            | some doc =>
                (dedup_build name now rest (pid :: seen)).map (fun out => doc :: out)

/-- `_crawl_district`: paginate, then deduplicate by kakao_id and normalize.
`none` models an exception escaping to `run`'s per-district `except`. -/
def crawl_district (fetch : Nat → FetchOutcome) (name : String) (now : Nat) :
    Option (List CafeDoc) :=
  dedup_build name now (crawl_pages fetch) []

/-- `CrawlResult` (the run summary); `elapsed_sec` is wall-clock time and is
not modelled. -/
structure CrawlResult where
  total_fetched : Nat
  inserted : Nat
  updated : Nat
  failed_districts : List String
deriving DecidableEq, Repr

/-- One zone of the catalog as the orchestrator sees it: its name, the
behaviour of the external API for its coordinates, the wall-clock instant
`datetime.now()` taken when its crawl starts, and the store-failure oracle
for its reconciliation (`none`: the store accepts every write). -/
structure ZoneInput where
  name : String
  fetch : Nat → FetchOutcome
  now : Nat
  failAt : Option Nat

/-- `_upsert_cafes` against a store that may reject a write: processing
record `i` first consults the oracle; a failure raises out of the loop,
keeping all earlier writes (MongoDB writes are not transactional here) and
discarding the local counters. -/
def upsert_cafes_f_aux :
    Option Nat → Nat → Store → List CafeDoc → Store × Option (Nat × Nat)
  | _, _, s, [] => (s, some (0, 0))
  | failAt, i, s, c :: rest =>
      if failAt = some i then (s, none)
      else
        let t := upsert_one s c
        match upsert_cafes_f_aux failAt (i + 1) t.1 rest with
        | (s2, none) => (s2, none)
        | (s2, some (ins, upd)) =>
            (s2, some (if t.2 then (ins + 1, upd) else (ins, upd + 1)))

def upsert_cafes_f (failAt : Option Nat) (s : Store) (cafes : List CafeDoc) :
    Store × Option (Nat × Nat) :=
  upsert_cafes_f_aux failAt 0 s cafes

def collect (z : ZoneInput) : Option (List CafeDoc) :=
  crawl_district z.fetch z.name z.now

/-- The body of `run`'s loop over the catalog: collect a zone, add its batch
size to `total_fetched`, reconcile, fold the counts; any exception (a
normalization error inside `_crawl_district`, or a store write rejection
inside `_upsert_cafes`) appends the zone's name to `failed_districts`.
Note the source increments `total_fetched` before calling `_upsert_cafes`. -/
def runCrawlAux : List ZoneInput → Store → CrawlResult → Store × CrawlResult
  | [], s, res => (s, res)
  | z :: zs, s, res =>
      match collect z with
      | none =>
          runCrawlAux zs s
            { res with failed_districts := res.failed_districts ++ [z.name] }
      | some cafes =>
          let res1 := { res with total_fetched := res.total_fetched + cafes.length }
          match upsert_cafes_f z.failAt s cafes with
          | (s2, none) =>
              runCrawlAux zs s2
                { res1 with failed_districts := res1.failed_districts ++ [z.name] }
          | (s2, some (ins, upd)) =>
              runCrawlAux zs s2
                { res1 with inserted := res1.inserted + ins,
                            updated := res1.updated + upd }

/-- `KakaoCrawler.run` over a zone catalog, starting from a given store. -/
def runCrawl (zones : List ZoneInput) (s : Store) : Store × CrawlResult :=
  runCrawlAux zones s
    { total_fetched := 0, inserted := 0, updated := 0, failed_districts := [] }

/- Derived notions used by the statements. -/

def storeIds (s : Store) : List String := s.map (fun r => r.doc.kakao_id)

/-- The store invariant backed by the unique index on `kakao_id`. -/
def UniqIds (s : Store) : Prop := (storeIds s).Nodup

/-- Every stored row has `first_seen_at <= updated_at`. -/
def TsOk (s : Store) : Prop := ∀ r ∈ s, r.collected_at ≤ r.doc.updated_at

/-- Last element of a list satisfying a predicate. -/
def lastP (p : α → Bool) : List α → Option α
  | [] => none
  | x :: rest =>
      match lastP p rest with
      | some y => some y
      | none => if p x then some x else none

/-- The last record of a batch carrying a given external id. -/
def lastFor (cafes : List CafeDoc) (k : String) : Option CafeDoc :=
  lastP (fun c => c.kakao_id == k) cafes

/-- Iterated reconciliation of one fixed batch. -/
def upsertN (s : Store) (cafes : List CafeDoc) : Nat → Store
  | 0 => s
  | n + 1 => (upsert_cafes (upsertN s cafes n) cafes).1

/-- The `first_seen_at` value an upsert leaves on the row: the stored one if
the row already exists, else the batch's `updated_at`. -/
def collectedOf (s : Store) (c : CafeDoc) : Nat :=
  match findRow s c.kakao_id with
  | some r => r.collected_at
  | none => c.updated_at

/- Concrete example inputs used by witnesses and counterexamples. -/

/-- A well-formed raw API record with the given id and name. -/
def exPlace (i n : String) : RawPlace :=
  { id := some i, place_name := some n, category_group_code := none,
    category_name := none, address_name := none, road_address_name := none,
    phone := none, x := some 0, y := some 0, place_url := none }

/-- A malformed raw record: carries id "a1" but no `place_name`. -/
def exBadDup : RawPlace :=
  { id := some "a1", place_name := none, category_group_code := none,
    category_name := none, address_name := none, road_address_name := none,
    phone := none, x := some 0, y := some 0, place_url := none }

/-- A malformed raw record with no id at all. -/
def exNoId : RawPlace :=
  { id := none, place_name := some "No Id", category_group_code := none,
    category_name := none, address_name := none, road_address_name := none,
    phone := none, x := some 0, y := some 0, place_url := none }

def fetchA : Nat → FetchOutcome :=
  fun _ => .ok [exPlace "a1" "Cafe A1", exPlace "a2" "Cafe A2", exPlace "a3" "Cafe A3"] true

def fetchErr : Nat → FetchOutcome := fun _ => .err

def fetchK : Nat → FetchOutcome := fun _ => .ok [exPlace "k" "Cafe K"] true

def fetchKM : Nat → FetchOutcome :=
  fun _ => .ok [exPlace "k" "Cafe K", exPlace "m" "Cafe M"] true

def fetchDup : Nat → FetchOutcome := fun _ => .ok [exPlace "a1" "Cafe A1", exBadDup] true

def fetchNoId : Nat → FetchOutcome := fun _ => .ok [exNoId] true

/-- The page contents served by `fetchP3` for pages below 3. -/
def exDocsP (p : Nat) : List RawPlace :=
  [exPlace (if p = 1 then "p1" else "p2") "Paged"]

/-- Pages 1 and 2 succeed (one record each, not the last page), page 3 raises. -/
def fetchP3 : Nat → FetchOutcome :=
  fun p => if p < 3 then .ok (exDocsP p) false else .err

/-- A zone whose stream repeats id "d" across two pages. -/
def fetchDup2 : Nat → FetchOutcome :=
  fun p => if p = 1 then .ok [exPlace "d" "Dup One"] false
           else .ok [exPlace "d" "Dup Two", exPlace "e" "Other"] true

def zoneA : ZoneInput := { name := "A", fetch := fetchA, now := 10, failAt := none }
def zoneBerr : ZoneInput := { name := "B", fetch := fetchErr, now := 10, failAt := none }
def zoneKA : ZoneInput := { name := "A", fetch := fetchK, now := 10, failAt := none }
def zoneKB : ZoneInput := { name := "B", fetch := fetchK, now := 20, failAt := none }
def zoneAfail : ZoneInput := { name := "A", fetch := fetchKM, now := 10, failAt := some 1 }
def zoneZdup : ZoneInput := { name := "Z", fetch := fetchDup, now := 7, failAt := none }
def zoneZnoid : ZoneInput := { name := "Z", fetch := fetchNoId, now := 7, failAt := none }

def exDoc1 : CafeDoc :=
  { kakao_id := "k1", name := "Cafe One", category_code := CAFE_CATEGORY_CODE,
    category_name := "", address := "", road_address := "", phone := "",
    x := 3, y := 4, place_url := "", district := "A", source := "kakao",
    updated_at := 5 }

def exDoc2 : CafeDoc := { exDoc1 with name := "Cafe One v2", district := "B", updated_at := 9 }

/-- The normalized record `fetchDup2`'s zone "Z" produces for id "d". -/
def exDocD : CafeDoc :=
  { kakao_id := "d", name := "Dup One", category_code := CAFE_CATEGORY_CODE,
    category_name := "", address := "", road_address := "", phone := "",
    x := 0, y := 0, place_url := "", district := "Z", source := "kakao",
    updated_at := 3 }

def exDocE : CafeDoc := { exDocD with kakao_id := "e", name := "Other" }

/-- The normalized records zone "P" (fetchP3) produces. -/
def exDocP1 : CafeDoc :=
  { kakao_id := "p1", name := "Paged", category_code := CAFE_CATEGORY_CODE,
    category_name := "", address := "", road_address := "", phone := "",
    x := 0, y := 0, place_url := "", district := "P", source := "kakao",
    updated_at := 3 }

def exDocP2 : CafeDoc := { exDocP1 with kakao_id := "p2" }

/-- Concatenation of the page documents for `n` consecutive pages starting
at `page` (the records accumulated from pages `page .. page+n-1`). -/
def pagesConcat (docs : Nat → List RawPlace) : Nat → Nat → List RawPlace
  | _, 0 => []
  | page, n + 1 => docs page ++ pagesConcat docs (page + 1) n

/-- The batch a zone's collection yields (empty if collection fails); used
to instantiate per-zone batch functions on concrete catalogs. -/
def exBatch (z : ZoneInput) : List CafeDoc := (collect z).getD []

/-- Componentwise combination of run summaries (counts add, failure lists
concatenate); used to relate the orchestrator's accumulator to per-zone
contributions. -/
def resAdd (a b : CrawlResult) : CrawlResult :=
  { total_fetched := a.total_fetched + b.total_fetched,
    inserted := a.inserted + b.inserted,
    updated := a.updated + b.updated,
    failed_districts := a.failed_districts ++ b.failed_districts }

/- Store-level lemmas. -/

theorem findRow_append_of_some {s : Store} {k : String} {r : StoredRow}
    (row : StoredRow) (h : findRow s k = some r) :
    findRow (s ++ [row]) k = some r := by
  induction s with
  | nil => simp [findRow] at h
  | cons a rest ih =>
      by_cases ha : a.doc.kakao_id = k
      · simp [findRow, ha] at h ⊢; exact h
      · simp [findRow, ha] at h ⊢; exact ih h

theorem findRow_append_of_none {s : Store} {k : String}
    (row : StoredRow) (h : findRow s k = none) :
    findRow (s ++ [row]) k = if row.doc.kakao_id = k then some row else none := by
  induction s with
  | nil => simp [findRow]
  | cons a rest ih =>
      by_cases ha : a.doc.kakao_id = k
      · simp [findRow, ha] at h
      · simp [findRow, ha] at h ⊢; exact ih h

theorem findRow_update_self (s : Store) (c : CafeDoc) :
    findRow (update_first s c) c.kakao_id
      = (findRow s c.kakao_id).map (fun r => { doc := c, collected_at := r.collected_at }) := by
  induction s with
  | nil => simp [update_first, findRow]
  | cons a rest ih =>
      by_cases ha : a.doc.kakao_id = c.kakao_id
      · simp [update_first, findRow, ha]
      · simp [update_first, findRow, ha, ih]

theorem findRow_update_other (s : Store) (c : CafeDoc) {k : String}
    (h : k ≠ c.kakao_id) :
    findRow (update_first s c) k = findRow s k := by
  induction s with
  | nil => simp [update_first]
  | cons a rest ih =>
      by_cases ha : a.doc.kakao_id = c.kakao_id
      · have : ¬ (c.kakao_id = k) := fun hc => h hc.symm
        simp [update_first, findRow, ha, this]
      · by_cases hk : a.doc.kakao_id = k
        · simp [update_first, findRow, ha, hk, h]
        · simp [update_first, findRow, ha, hk, ih]

theorem storeIds_update (s : Store) (c : CafeDoc) :
    storeIds (update_first s c) = storeIds s := by
  induction s with
  | nil => rfl
  | cons a rest ih =>
      by_cases ha : a.doc.kakao_id = c.kakao_id
      · simp [update_first, storeIds, ha]
      · simp [update_first, storeIds, ha]
        simpa [storeIds] using ih

theorem mem_update_first {s : Store} {c : CafeDoc} {r' : StoredRow}
    (h : r' ∈ update_first s c) :
    r' ∈ s ∨ ∃ r ∈ s, r.doc.kakao_id = c.kakao_id ∧ r' = ⟨c, r.collected_at⟩ := by
  induction s with
  | nil => simp [update_first] at h
  | cons a rest ih =>
      by_cases ha : a.doc.kakao_id = c.kakao_id
      · simp [update_first, ha] at h
        rcases h with h | h
        · exact Or.inr ⟨a, by simp, ha, h⟩
        · exact Or.inl (by simp [h])
      · simp [update_first, ha] at h
        rcases h with h | h
        · exact Or.inl (by simp [h])
        · rcases ih h with h' | ⟨r, hr, hid, he⟩
          · exact Or.inl (by simp [h'])
          · exact Or.inr ⟨r, by simp [hr], hid, he⟩

theorem upsert_one_of_found {s : Store} {c : CafeDoc} {r : StoredRow}
    (h : findRow s c.kakao_id = some r) :
    upsert_one s c = (update_first s c, false) := by
  simp [upsert_one, h]

theorem upsert_one_of_missing {s : Store} {c : CafeDoc}
    (h : findRow s c.kakao_id = none) :
    upsert_one s c = (s ++ [{ doc := c, collected_at := c.updated_at }], true) := by
  simp [upsert_one, h]

theorem findRow_upsert_one_self (s : Store) (c : CafeDoc) :
    findRow (upsert_one s c).1 c.kakao_id = some { doc := c, collected_at := collectedOf s c } := by
  cases h : findRow s c.kakao_id with
  | some r =>
      rw [upsert_one_of_found h]
      simp [findRow_update_self, h, collectedOf]
  | none =>
      rw [upsert_one_of_missing h]
      simp [findRow_append_of_none _ h, collectedOf, h]

theorem findRow_upsert_one_other (s : Store) (c : CafeDoc) {k : String}
    (h : k ≠ c.kakao_id) :
    findRow (upsert_one s c).1 k = findRow s k := by
  cases h' : findRow s c.kakao_id with
  | some r =>
      rw [upsert_one_of_found h']
      exact findRow_update_other s c h
  | none =>
      rw [upsert_one_of_missing h']
      cases hk : findRow s k with
      | some r => simp [findRow_append_of_some _ hk]
      | none =>
          rw [findRow_append_of_none _ hk]
          have hne : ¬ ((⟨c, c.updated_at⟩ : StoredRow).doc.kakao_id = k) :=
            fun hc => h hc.symm
          simp [hne]


theorem findRow_eq_none_iff {s : Store} {k : String} :
    findRow s k = none ↔ k ∉ storeIds s := by
  induction s with
  | nil => simp [findRow, storeIds]
  | cons a rest ih =>
      by_cases ha : a.doc.kakao_id = k
      · simp [findRow, storeIds, ha]
      · have hb : (a.doc.kakao_id == k) = false := by simpa using ha
        have hstep : findRow (a :: rest) k = findRow rest k := by
          simp [findRow, hb]
        rw [hstep, ih]
        constructor
        · intro h hmem
          have hmem' : k = a.doc.kakao_id ∨ k ∈ storeIds rest := by
            simpa [storeIds] using hmem
          rcases hmem' with h1 | h2
          · exact ha h1.symm
          · exact h h2
        · intro h h2
          apply h
          simp [storeIds] at h2 ⊢
          exact Or.inr h2

theorem storeIds_upsert_one (s : Store) (c : CafeDoc) :
    storeIds (upsert_one s c).1 = storeIds s ∨
      (storeIds (upsert_one s c).1 = storeIds s ++ [c.kakao_id]
        ∧ findRow s c.kakao_id = none) := by
  cases h : findRow s c.kakao_id with
  | some r =>
      rw [upsert_one_of_found h]
      exact Or.inl (storeIds_update s c)
  | none =>
      rw [upsert_one_of_missing h]
      exact Or.inr ⟨by simp [storeIds], rfl⟩

theorem uniq_upsert_one {s : Store} (h : UniqIds s) (c : CafeDoc) :
    UniqIds (upsert_one s c).1 := by
  rcases storeIds_upsert_one s c with h' | ⟨h', hn⟩
  · unfold UniqIds; rw [h']; exact h
  · unfold UniqIds
    rw [h']
    have hmem : c.kakao_id ∉ storeIds s := findRow_eq_none_iff.mp hn
    have hs : (storeIds s).Nodup := h
    simp [List.nodup_append, hs, hmem]

theorem upsert_cafes_cons_fst (s : Store) (c : CafeDoc) (rest : List CafeDoc) :
    (upsert_cafes s (c :: rest)).1 = (upsert_cafes (upsert_one s c).1 rest).1 := by
  simp only [upsert_cafes]
  cases h : (upsert_one s c).2 <;> simp [h]

theorem uniq_upsert_cafes {s : Store} (h : UniqIds s) (cafes : List CafeDoc) :
    UniqIds (upsert_cafes s cafes).1 := by
  induction cafes generalizing s with
  | nil => exact h
  | cons c rest ih =>
      rw [upsert_cafes_cons_fst]
      exact ih (uniq_upsert_one h c)

theorem lastP_eq_none_iff {p : α → Bool} {l : List α} :
    lastP p l = none ↔ ∀ x ∈ l, p x = false := by
  induction l with
  | nil => simp [lastP]
  | cons x rest ih =>
      simp only [lastP]
      cases h : lastP p rest with
      | some y =>
          constructor
          · intro hc; cases hc
          · intro hall
            have h0 : lastP p rest = none :=
              ih.mpr (fun a ha => hall a (List.mem_cons_of_mem _ ha))
            rw [h0] at h; cases h
      | none =>
          by_cases hx : p x = true
          · constructor
            · intro hc; rw [if_pos hx] at hc; cases hc
            · intro hall
              have := hall x (by simp)
              rw [hx] at this; cases this
          · have hx' : p x = false := by simpa using hx
            constructor
            · intro _ a ha
              rcases List.mem_cons.mp ha with h1 | h2
              · rw [h1]; exact hx'
              · exact ih.mp h a h2
            · intro _
              rw [if_neg hx]

theorem lastFor_cons (d : CafeDoc) (rest : List CafeDoc) (k : String) :
    lastFor (d :: rest) k
      = match lastFor rest k with
        | some y => some y
        | none => if d.kakao_id == k then some d else none := by
  simp only [lastFor, lastP]
  cases lastP (fun c => c.kakao_id == k) rest <;> rfl

theorem findRow_upsert_cafes_none {cafes : List CafeDoc} {k : String}
    (h : lastFor cafes k = none) (s : Store) :
    findRow (upsert_cafes s cafes).1 k = findRow s k := by
  induction cafes generalizing s with
  | nil => rfl
  | cons c rest ih =>
      have hall := lastP_eq_none_iff.mp h
      have hc : ¬ (c.kakao_id = k) := by
        have := hall c (by simp)
        simpa using this
      have hrest : lastFor rest k = none :=
        lastP_eq_none_iff.mpr (fun x hx => hall x (by simp [hx]))
      rw [upsert_cafes_cons_fst, ih hrest,
          findRow_upsert_one_other s c (fun hk => hc hk.symm)]

theorem findRow_upsert_cafes_last {cafes : List CafeDoc} {k : String} {c : CafeDoc}
    (h : lastFor cafes k = some c) (s : Store) :
    ∃ n, findRow (upsert_cafes s cafes).1 k = some { doc := c, collected_at := n } := by
  induction cafes generalizing s with
  | nil => cases h
  | cons d rest ih =>
      rw [upsert_cafes_cons_fst]
      rw [lastFor_cons] at h
      cases hr : lastFor rest k with
      | some c' =>
          rw [hr] at h
          simp only at h
          cases h
          exact ih hr _
      | none =>
          rw [hr] at h
          simp only at h
          by_cases hx : d.kakao_id = k
          · rw [if_pos (by simpa using hx)] at h
            injection h with h2
            subst h2
            rw [findRow_upsert_cafes_none hr, ← hx, findRow_upsert_one_self]
            exact ⟨collectedOf s d, rfl⟩
          · rw [if_neg (by simpa using hx)] at h
            cases h

theorem update_absorb {c c2 : CafeDoc} (h : c2.kakao_id = c.kakao_id) (s : Store) :
    update_first (update_first s c) c2 = update_first s c2 := by
  induction s with
  | nil => rfl
  | cons a rest ih =>
      by_cases ha : a.doc.kakao_id = c.kakao_id
      · simp [update_first, ha, h]
      · simp [update_first, ha, h, ih]

theorem update_comm {c c2 : CafeDoc} (h : c2.kakao_id ≠ c.kakao_id) (s : Store) :
    update_first (update_first s c) c2 = update_first (update_first s c2) c := by
  induction s with
  | nil => rfl
  | cons a rest ih =>
      by_cases h1 : a.doc.kakao_id = c.kakao_id
      · have h2 : ¬ a.doc.kakao_id = c2.kakao_id := by
          rw [h1]; exact fun he => h he.symm
        have h3 : ¬ c.kakao_id = c2.kakao_id := fun he => h he.symm
        simp [update_first, h1, h2, h3]
      · by_cases h2 : a.doc.kakao_id = c2.kakao_id
        · simp [update_first, h1, h2, h]
        · simp [update_first, h1, h2, ih]

theorem update_id {s : Store} {c : CafeDoc} {n : Nat}
    (h : findRow s c.kakao_id = some { doc := c, collected_at := n }) :
    update_first s c = s := by
  induction s with
  | nil => cases h
  | cons a rest ih =>
      by_cases ha : a.doc.kakao_id = c.kakao_id
      · have h' : a = { doc := c, collected_at := n } := by
          simpa [findRow, ha] using h
        subst h'
        simp [update_first]
      · have h2 : findRow rest c.kakao_id = some { doc := c, collected_at := n } := by
          simpa [findRow, ha] using h
        simp [update_first, ha, ih h2]

theorem foldl_update_mem {rest : List CafeDoc} {c : CafeDoc}
    (h : c.kakao_id ∈ rest.map (fun d => d.kakao_id)) (t : Store) :
    rest.foldl update_first (update_first t c) = rest.foldl update_first t := by
  induction rest generalizing t with
  | nil => simp at h
  | cons d rest ih =>
      simp only [List.foldl_cons]
      by_cases hd : d.kakao_id = c.kakao_id
      · rw [update_absorb hd]
      · have hmem : c.kakao_id ∈ rest.map (fun d => d.kakao_id) := by
          rcases List.mem_map.mp h with ⟨x, hx, he⟩
          rcases List.mem_cons.mp hx with h1 | h2
          · exact absurd (h1 ▸ he) hd
          · exact List.mem_map.mpr ⟨x, h2, he⟩
        rw [update_comm hd, ih hmem]

theorem foldl_update_comm {rest : List CafeDoc} {c : CafeDoc}
    (h : c.kakao_id ∉ rest.map (fun d => d.kakao_id)) (t : Store) :
    rest.foldl update_first (update_first t c) = update_first (rest.foldl update_first t) c := by
  induction rest generalizing t with
  | nil => simp
  | cons d rest ih =>
      have hd : d.kakao_id ≠ c.kakao_id := by
        intro he
        exact h (List.mem_map.mpr ⟨d, by simp, he⟩)
      have hmem : c.kakao_id ∉ rest.map (fun d => d.kakao_id) := by
        intro hm
        rcases List.mem_map.mp hm with ⟨x, hx, he⟩
        exact h (List.mem_map.mpr ⟨x, by simp [hx], he⟩)
      simp only [List.foldl_cons]
      rw [update_comm hd, ih hmem]

theorem findRow_update_isSome {s : Store} {k : String} (c : CafeDoc)
    (h : (findRow s k).isSome) : (findRow (update_first s c) k).isSome := by
  by_cases hk : k = c.kakao_id
  · subst hk
    rw [findRow_update_self]
    rcases Option.isSome_iff_exists.mp h with ⟨r, hr⟩
    simp [hr]
  · rw [findRow_update_other s c hk]; exact h

theorem findRow_upsert_one_isSome {s : Store} {k : String} (c : CafeDoc)
    (h : (findRow s k).isSome) : (findRow (upsert_one s c).1 k).isSome := by
  by_cases hk : k = c.kakao_id
  · subst hk
    rw [findRow_upsert_one_self]
    rfl
  · rw [findRow_upsert_one_other s c hk]; exact h

theorem findRow_upsert_cafes_isSome (cafes : List CafeDoc) {s : Store} {k : String}
    (h : (findRow s k).isSome) : (findRow (upsert_cafes s cafes).1 k).isSome := by
  induction cafes generalizing s with
  | nil => exact h
  | cons c rest ih =>
      rw [upsert_cafes_cons_fst]
      exact ih (findRow_upsert_one_isSome c h)

theorem present_after_upsert_cafes (s : Store) (cafes : List CafeDoc) :
    ∀ c ∈ cafes, (findRow (upsert_cafes s cafes).1 c.kakao_id).isSome := by
  induction cafes generalizing s with
  | nil => intro c hc; cases hc
  | cons d rest ih =>
      intro c hc
      rw [upsert_cafes_cons_fst]
      rcases List.mem_cons.mp hc with h1 | h2
      · subst h1
        apply findRow_upsert_cafes_isSome
        rw [findRow_upsert_one_self]
        rfl
      · exact ih (upsert_one s d).1 c h2

theorem upsert_cafes_all_found {cafes : List CafeDoc} {s : Store}
    (h : ∀ c ∈ cafes, (findRow s c.kakao_id).isSome) :
    upsert_cafes s cafes = (cafes.foldl update_first s, 0, cafes.length) := by
  induction cafes generalizing s with
  | nil => rfl
  | cons c rest ih =>
      rcases Option.isSome_iff_exists.mp (h c (by simp)) with ⟨r, hr⟩
      have hu : upsert_one s c = (update_first s c, false) := upsert_one_of_found hr
      have hrest : ∀ d ∈ rest, (findRow (update_first s c) d.kakao_id).isSome :=
        fun d hd => findRow_update_isSome c (h d (by simp [hd]))
      have hstep : upsert_cafes s (c :: rest)
          = ((upsert_cafes (update_first s c) rest).1,
             (upsert_cafes (update_first s c) rest).2.1,
             (upsert_cafes (update_first s c) rest).2.2 + 1) := by
        simp [upsert_cafes, hu]
      rw [hstep, ih hrest]
      simp

theorem foldl_update_after (cafes : List CafeDoc) (s : Store) :
    cafes.foldl update_first (upsert_cafes s cafes).1 = (upsert_cafes s cafes).1 := by
  induction cafes generalizing s with
  | nil => rfl
  | cons c rest ih =>
      rw [upsert_cafes_cons_fst]
      simp only [List.foldl_cons]
      by_cases hc : c.kakao_id ∈ rest.map (fun d => d.kakao_id)
      · rw [foldl_update_mem hc, ih]
      · rw [foldl_update_comm hc, ih]
        have hnone : lastFor rest c.kakao_id = none := by
          apply lastP_eq_none_iff.mpr
          intro d hd
          have hne : d.kakao_id ≠ c.kakao_id := by
            intro he
            exact hc (List.mem_map.mpr ⟨d, hd, he⟩)
          simpa using hne
        have hfind : findRow (upsert_cafes (upsert_one s c).1 rest).1 c.kakao_id
            = some { doc := c, collected_at := collectedOf s c } := by
          rw [findRow_upsert_cafes_none hnone, findRow_upsert_one_self]
        exact update_id hfind

/-- C1: Reconciler idempotency. After a first run of `_upsert_cafes` stores
the batch, re-running the identical batch any further number of times leaves
the stored state unchanged, and each such re-run classifies every record of
the batch as updated (zero inserted, `cafes.length` updated). -/
theorem claim_C1_reconciler_idempotent (s : Store) (cafes : List CafeDoc) :
    (∀ n : Nat, upsertN s cafes (n + 1) = (upsert_cafes s cafes).1) ∧
    upsert_cafes (upsert_cafes s cafes).1 cafes
      = ((upsert_cafes s cafes).1, 0, cafes.length) := by
  have hsecond : upsert_cafes (upsert_cafes s cafes).1 cafes
      = ((upsert_cafes s cafes).1, 0, cafes.length) := by
    have hap : ∀ c ∈ cafes, (findRow (upsert_cafes s cafes).1 c.kakao_id).isSome :=
      present_after_upsert_cafes s cafes
    rw [upsert_cafes_all_found hap, foldl_update_after]
  refine ⟨?_, hsecond⟩
  intro n
  induction n with
  | zero => rfl
  | succ m ih =>
      show (upsert_cafes (upsertN s cafes (m + 1)) cafes).1 = (upsert_cafes s cafes).1
      rw [ih, hsecond]

/-- C4: First-seen immutability of the upsert. If a row already exists for
the record's `kakao_id`, `_upsert_cafes`'s per-record upsert overwrites every
field of that row with the record (only `collected_at`, the first-seen
timestamp, keeps its stored value), classifies it as updated, and leaves
every other key untouched; if no row exists, it inserts the record with
`collected_at` set to the record's `updated_at` and classifies it as
inserted. -/
theorem claim_C4_first_seen_immutable (s : Store) (c : CafeDoc) :
    (∀ r, findRow s c.kakao_id = some r →
        (upsert_one s c).2 = false ∧
        findRow (upsert_one s c).1 c.kakao_id
          = some { doc := c, collected_at := r.collected_at } ∧
        ∀ k, k ≠ c.kakao_id → findRow (upsert_one s c).1 k = findRow s k)
    ∧ (findRow s c.kakao_id = none →
        (upsert_one s c).2 = true ∧
        findRow (upsert_one s c).1 c.kakao_id
          = some { doc := c, collected_at := c.updated_at } ∧
        ∀ k, k ≠ c.kakao_id → findRow (upsert_one s c).1 k = findRow s k) := by
  constructor
  · intro r hr
    refine ⟨?_, ?_, ?_⟩
    · rw [upsert_one_of_found hr]
    · rw [findRow_upsert_one_self]
      simp [collectedOf, hr]
    · intro k hk
      exact findRow_upsert_one_other s c hk
  · intro hn
    refine ⟨?_, ?_, ?_⟩
    · rw [upsert_one_of_missing hn]
    · rw [findRow_upsert_one_self]
      simp [collectedOf, hn]
    · intro k hk
      exact findRow_upsert_one_other s c hk

/-- Witness for C4: a record inserted at time 5 and reconciled again at time
9 keeps first-seen 5, while every other field (name, district, updated_at)
becomes the new record's value. -/
theorem claim_C4_witness :
    (upsert_one [{ doc := exDoc1, collected_at := 5 }] exDoc2).2 = false ∧
    findRow (upsert_one [{ doc := exDoc1, collected_at := 5 }] exDoc2).1 exDoc2.kakao_id
      = some { doc := exDoc2, collected_at := 5 } := by
  have h := (claim_C4_first_seen_immutable [{ doc := exDoc1, collected_at := 5 }] exDoc2).1
    { doc := exDoc1, collected_at := 5 } (by decide)
  exact ⟨h.1, h.2.1⟩

theorem tsok_upsert_one {s : Store} {c : CafeDoc} {now : Nat}
    (hts : TsOk s) (hbound : ∀ r ∈ s, r.doc.updated_at ≤ now)
    (hc : c.updated_at = now) :
    TsOk (upsert_one s c).1 ∧ ∀ r ∈ (upsert_one s c).1, r.doc.updated_at ≤ now := by
  cases h : findRow s c.kakao_id with
  | some r0 =>
      rw [upsert_one_of_found h]
      constructor
      · intro r2 hr2
        rcases mem_update_first hr2 with h1 | ⟨r, hr, hid, he⟩
        · exact hts r2 h1
        · subst he
          have h3 : r.collected_at ≤ r.doc.updated_at := hts r hr
          have h4 : r.doc.updated_at ≤ now := hbound r hr
          simp only
          omega
      · intro r2 hr2
        rcases mem_update_first hr2 with h1 | ⟨r, hr, hid, he⟩
        · exact hbound r2 h1
        · subst he
          simp only
          omega
  | none =>
      rw [upsert_one_of_missing h]
      constructor
      · intro r2 hr2
        rcases List.mem_append.mp hr2 with h1 | h2
        · exact hts r2 h1
        · simp at h2
          subst h2
          simp
      · intro r2 hr2
        rcases List.mem_append.mp hr2 with h1 | h2
        · exact hbound r2 h1
        · simp at h2
          subst h2
          simp [hc]

theorem tsok_upsert_cafes {cafes : List CafeDoc} {s : Store} {now : Nat}
    (hts : TsOk s) (hbound : ∀ r ∈ s, r.doc.updated_at ≤ now)
    (hc : ∀ c ∈ cafes, c.updated_at = now) :
    TsOk (upsert_cafes s cafes).1
      ∧ ∀ r ∈ (upsert_cafes s cafes).1, r.doc.updated_at ≤ now := by
  induction cafes generalizing s with
  | nil => exact ⟨hts, hbound⟩
  | cons c rest ih =>
      rw [upsert_cafes_cons_fst]
      have h1 := tsok_upsert_one hts hbound (hc c (by simp))
      exact ih h1.1 h1.2 (fun d hd => hc d (by simp [hd]))

/-- C8: the store invariant is preserved by every reconciliation step. If
the store has at most one row per `kakao_id` and every row satisfies
first-seen ≤ updated and updated ≤ the incoming batch's shared timestamp,
then after `_upsert_cafes` the same holds (so the invariant is preserved
along any sequence of batches whose timestamps are non-decreasing). -/
theorem claim_C8_store_invariant (s : Store) (cafes : List CafeDoc) (now : Nat)
    (h1 : UniqIds s) (h2 : TsOk s)
    (hbound : ∀ r ∈ s, r.doc.updated_at ≤ now)
    (hbatch : ∀ c ∈ cafes, c.updated_at = now) :
    UniqIds (upsert_cafes s cafes).1 ∧ TsOk (upsert_cafes s cafes).1 ∧
      ∀ r ∈ (upsert_cafes s cafes).1, r.doc.updated_at ≤ now := by
  refine ⟨uniq_upsert_cafes h1 cafes, ?_, ?_⟩
  · exact (tsok_upsert_cafes h2 hbound hbatch).1
  · exact (tsok_upsert_cafes h2 hbound hbatch).2

/-- Witness for C8: a store holding the time-5 row and a batch stamped 9
keep the invariant. -/
theorem claim_C8_witness :
    UniqIds (upsert_cafes [{ doc := exDoc1, collected_at := 4 }] [exDoc2]).1 ∧
    TsOk (upsert_cafes [{ doc := exDoc1, collected_at := 4 }] [exDoc2]).1 ∧
    ∀ r ∈ (upsert_cafes [{ doc := exDoc1, collected_at := 4 }] [exDoc2]).1,
      r.doc.updated_at ≤ 9 :=
  claim_C8_store_invariant [{ doc := exDoc1, collected_at := 4 }] [exDoc2] 9
    (by unfold UniqIds storeIds; decide) (by unfold TsOk; decide)
    (by decide) (by decide)

/- Normalization lemmas. -/

theorem build_some_eq {p : RawPlace} {pid pname : String} {px py : Int}
    (name : String) (now : Nat)
    (hid : p.id = some pid) (hname : p.place_name = some pname)
    (hx : p.x = some px) (hy : p.y = some py) :
    build_cafe_doc p name now
      = some { kakao_id := pid, name := pname,
               category_code := CAFE_CATEGORY_CODE,
               category_name := p.category_name.getD "",
               address := p.address_name.getD "",
               road_address := p.road_address_name.getD "",
               phone := p.phone.getD "",
               x := px, y := py,
               place_url := p.place_url.getD "",
               district := name, source := "kakao", updated_at := now } := by
  simp [build_cafe_doc, hid, hname, hx, hy]

theorem build_none_of_missing {p : RawPlace} (name : String) (now : Nat)
    (h : p.place_name = none ∨ p.x = none ∨ p.y = none) :
    build_cafe_doc p name now = none := by
  cases hid : p.id with
  | none => simp [build_cafe_doc, hid]
  | some pid =>
      cases hname : p.place_name with
      | none => simp [build_cafe_doc, hid, hname]
      | some pname =>
          cases hx : p.x with
          | none => simp [build_cafe_doc, hid, hname, hx]
          | some px =>
              cases hy : p.y with
              | none => simp [build_cafe_doc, hid, hname, hx, hy]
              | some py =>
                  rcases h with h | h | h
                  · rw [h] at hname; cases hname
                  · rw [h] at hx; cases hx
                  · rw [h] at hy; cases hy

theorem build_id {p : RawPlace} {name : String} {now : Nat} {doc : CafeDoc}
    (h : build_cafe_doc p name now = some doc) : p.id = some doc.kakao_id := by
  cases hid : p.id with
  | none => simp [build_cafe_doc, hid] at h
  | some pid =>
      cases hname : p.place_name with
      | none => simp [build_cafe_doc, hid, hname] at h
      | some pname =>
          cases hx : p.x with
          | none => simp [build_cafe_doc, hid, hname, hx] at h
          | some px =>
              cases hy : p.y with
              | none => simp [build_cafe_doc, hid, hname, hx, hy] at h
              | some py =>
                  rw [build_some_eq name now hid hname hx hy] at h
                  injection h with h2
                  rw [← h2]

theorem build_fields {p : RawPlace} {name : String} {now : Nat} {doc : CafeDoc}
    (h : build_cafe_doc p name now = some doc) :
    doc.district = name ∧ doc.source = "kakao"
      ∧ doc.category_code = CAFE_CATEGORY_CODE ∧ doc.updated_at = now := by
  cases hid : p.id with
  | none => simp [build_cafe_doc, hid] at h
  | some pid =>
      cases hname : p.place_name with
      | none => simp [build_cafe_doc, hid, hname] at h
      | some pname =>
          cases hx : p.x with
          | none => simp [build_cafe_doc, hid, hname, hx] at h
          | some px =>
              cases hy : p.y with
              | none => simp [build_cafe_doc, hid, hname, hx, hy] at h
              | some py =>
                  rw [build_some_eq name now hid hname hx hy] at h
                  injection h with h2
                  rw [← h2]
                  exact ⟨rfl, rfl, rfl, rfl⟩

theorem dedup_build_cons (name : String) (now : Nat) (p : RawPlace)
    (rest : List RawPlace) (seen : List String) :
    dedup_build name now (p :: rest) seen
      = match p.id with
        | none => none
        | some pid =>
            if pid ∈ seen then dedup_build name now rest seen
            else
              match build_cafe_doc p name now with
              | none => none
              | some doc =>
                  (dedup_build name now rest (pid :: seen)).map
                    (fun out => doc :: out) := by
  cases hid : p.id with
  | none => simp [dedup_build, hid]
  | some pid => simp [dedup_build, hid]

theorem dedup_mem_seen {name : String} {now : Nat} {places : List RawPlace}
    {seen : List String} {out : List CafeDoc} {k : String}
    (h : dedup_build name now places seen = some out) (hk : k ∈ seen) :
    out.filter (fun c => c.kakao_id == k) = [] := by
  induction places generalizing seen out with
  | nil =>
      simp only [dedup_build] at h
      injection h with h2
      rw [← h2]
      rfl
  | cons p rest ih =>
      rw [dedup_build_cons] at h
      cases hid : p.id with
      | none => simp [hid] at h
      | some pid =>
          simp only [hid] at h
          by_cases hmem : pid ∈ seen
          · rw [if_pos hmem] at h
            exact ih h hk
          · rw [if_neg hmem] at h
            cases hb : build_cafe_doc p name now with
            | none => simp [hb] at h
            | some doc =>
                simp only [hb] at h
                cases hd : dedup_build name now rest (pid :: seen) with
                | none => simp [hd] at h
                | some out2 =>
                    simp only [hd, Option.map_some'] at h
                    injection h with h2
                    rw [← h2]
                    have hpid : doc.kakao_id = pid := by
                      have h3 := build_id hb
                      rw [hid] at h3
                      injection h3 with h4
                      exact h4.symm
                    have hne : (doc.kakao_id == k) = false := by
                      rw [hpid]
                      exact beq_eq_false_iff_ne.mpr (fun he => hmem (he ▸ hk))
                    simp only [List.filter_cons, hne]
                    simp only [Bool.false_eq_true, if_false]
                    exact ih hd (by simp [hk])

theorem dedup_first_occ {name : String} {now : Nat} {places : List RawPlace}
    {seen : List String} {out : List CafeDoc} {k : String}
    (h : dedup_build name now places seen = some out) (hk : k ∉ seen)
    (hocc : ∃ p ∈ places, p.id = some k) :
    (out.filter (fun c => c.kakao_id == k)).length = 1 ∧
    ∃ p, places.find? (fun q => q.id == some k) = some p ∧
      out.find? (fun c => c.kakao_id == k) = build_cafe_doc p name now := by
  induction places generalizing seen out with
  | nil =>
      rcases hocc with ⟨p, hp, _⟩
      cases hp
  | cons p rest ih =>
      rw [dedup_build_cons] at h
      cases hid : p.id with
      | none => simp [hid] at h
      | some pid =>
          simp only [hid] at h
          by_cases hmem : pid ∈ seen
          · have hpk : pid ≠ k := fun he => hk (he ▸ hmem)
            rw [if_pos hmem] at h
            have hocc2 : ∃ q ∈ rest, q.id = some k := by
              rcases hocc with ⟨q, hq, hqid⟩
              rcases List.mem_cons.mp hq with h1 | h2
              · exfalso
                rw [h1, hid] at hqid
                injection hqid with h3
                exact hpk h3
              · exact ⟨q, h2, hqid⟩
            have hhead : (p.id == some k) = false := by
              rw [hid]
              exact beq_eq_false_iff_ne.mpr (by simp [hpk])
            rcases ih h hk hocc2 with ⟨hlen, q, hq1, hq2⟩
            refine ⟨hlen, q, ?_, hq2⟩
            rw [List.find?_cons_of_neg _ (by simp [hhead]), hq1]
          · rw [if_neg hmem] at h
            cases hb : build_cafe_doc p name now with
            | none => simp [hb] at h
            | some doc =>
                simp only [hb] at h
                cases hd : dedup_build name now rest (pid :: seen) with
                | none => simp [hd] at h
                | some out2 =>
                    simp only [hd, Option.map_some'] at h
                    injection h with h2
                    rw [← h2]
                    have hpid : doc.kakao_id = pid := by
                      have h3 := build_id hb
                      rw [hid] at h3
                      injection h3 with h4
                      exact h4.symm
                    by_cases hpk : pid = k
                    · subst hpk
                      have hrest0 : out2.filter (fun c => c.kakao_id == pid) = [] :=
                        dedup_mem_seen hd (by simp)
                      constructor
                      · simp [List.filter_cons, hpid, hrest0]
                      · refine ⟨p, ?_, ?_⟩
                        · rw [List.find?_cons_of_pos _ (by simp [hid])]
                        · rw [List.find?_cons_of_pos _ (by simp [hpid]), hb]
                    · have hocc2 : ∃ q ∈ rest, q.id = some k := by
                        rcases hocc with ⟨q, hq, hqid⟩
                        rcases List.mem_cons.mp hq with h1 | h2
                        · exfalso
                          rw [h1, hid] at hqid
                          injection hqid with h3
                          exact hpk h3
                        · exact ⟨q, h2, hqid⟩
                      have hk2 : k ∉ pid :: seen := by
                        intro hm
                        rcases List.mem_cons.mp hm with h1 | h2
                        · exact hpk h1.symm
                        · exact hk h2
                      rcases ih hd hk2 hocc2 with ⟨hlen, q, hq1, hq2⟩
                      have hne : (doc.kakao_id == k) = false := by
                        rw [hpid]
                        exact beq_eq_false_iff_ne.mpr hpk
                      refine ⟨?_, q, ?_, ?_⟩
                      · simp [List.filter_cons, hne, hlen]
                      · have hhead : (p.id == some k) = false := by
                          rw [hid]
                          exact beq_eq_false_iff_ne.mpr (by simp [hpk])
                        rw [List.find?_cons_of_neg _ (by simp [hhead]), hq1]
                      · rw [List.find?_cons_of_neg _ (by simp [hne]), hq2]

theorem dedup_stamp {name : String} {now : Nat} {places : List RawPlace}
    {seen : List String} {out : List CafeDoc}
    (h : dedup_build name now places seen = some out) :
    ∀ c ∈ out, c.district = name ∧ c.source = "kakao"
      ∧ c.category_code = CAFE_CATEGORY_CODE ∧ c.updated_at = now := by
  induction places generalizing seen out with
  | nil =>
      simp only [dedup_build] at h
      injection h with h2
      rw [← h2]
      intro c hc
      cases hc
  | cons p rest ih =>
      rw [dedup_build_cons] at h
      cases hid : p.id with
      | none => simp [hid] at h
      | some pid =>
          simp only [hid] at h
          by_cases hmem : pid ∈ seen
          · rw [if_pos hmem] at h
            exact ih h
          · rw [if_neg hmem] at h
            cases hb : build_cafe_doc p name now with
            | none => simp [hb] at h
            | some doc =>
                simp only [hb] at h
                cases hd : dedup_build name now rest (pid :: seen) with
                | none => simp [hd] at h
                | some out2 =>
                    simp only [hd, Option.map_some'] at h
                    injection h with h2
                    rw [← h2]
                    intro c hc
                    rcases List.mem_cons.mp hc with h1 | h3
                    · rw [h1]
                      exact build_fields hb
                    · exact ih hd c h3

/-- C5: Per-zone dedup correctness. If a zone's accumulated raw page stream
contains the same external id more than once, the collector's output (when
normalization succeeds) contains exactly one normalized record for that id,
and it is the normalization of the first occurrence in fetch order. -/
theorem claim_C5_dedup_first_occurrence (fetch : Nat → FetchOutcome)
    (name : String) (now : Nat) (out : List CafeDoc) (k : String)
    (hout : crawl_district fetch name now = some out)
    (hdup : 2 ≤ ((crawl_pages fetch).filter (fun p => p.id == some k)).length) :
    (out.filter (fun c => c.kakao_id == k)).length = 1 ∧
    ∃ p, (crawl_pages fetch).find? (fun q => q.id == some k) = some p ∧
      out.find? (fun c => c.kakao_id == k) = build_cafe_doc p name now := by
  have hocc : ∃ p ∈ crawl_pages fetch, p.id = some k := by
    have hne : (crawl_pages fetch).filter (fun p => p.id == some k) ≠ [] := by
      intro he
      rw [he] at hdup
      simp at hdup
    rcases List.exists_mem_of_ne_nil _ hne with ⟨p, hp⟩
    have hmem := List.mem_filter.mp hp
    exact ⟨p, hmem.1, by simpa using hmem.2⟩
  unfold crawl_district at hout
  exact dedup_first_occ hout (by simp) hocc

/-- Witness for C5 at a stream where id "d" appears on pages 1 and 2: one
output record for "d", built from the page-1 occurrence. -/
theorem claim_C5_witness :
    (([exDocD, exDocE].filter (fun c => c.kakao_id == "d")).length = 1) ∧
    ∃ p, (crawl_pages fetchDup2).find? (fun q => q.id == some "d") = some p ∧
      [exDocD, exDocE].find? (fun c => c.kakao_id == "d")
        = build_cafe_doc p "Z" 3 :=
  claim_C5_dedup_first_occurrence fetchDup2 "Z" 3 [exDocD, exDocE] "d"
    (by decide) (by decide)

theorem crawl_pages_aux_err {fetch : Nat → FetchOutcome} {k : Nat}
    (docs : Nat → List RawPlace) (hfail : fetch k = .err) :
    ∀ (fuel page : Nat) (acc : List RawPlace), page ≤ k → k < page + fuel →
      (∀ q, page ≤ q → q < k → fetch q = .ok (docs q) false) →
      crawl_pages_aux fetch fuel page acc = acc ++ pagesConcat docs page (k - page) := by
  intro fuel
  induction fuel with
  | zero =>
      intro page acc h1 h2 h3
      omega
  | succ m ih =>
      intro page acc h1 h2 h3
      by_cases hpk : page = k
      · subst hpk
        simp [crawl_pages_aux, hfail, pagesConcat]
      · have hlt : page < k := lt_of_le_of_ne h1 hpk
        have hfetch : fetch page = .ok (docs page) false := h3 page le_rfl hlt
        have hstep : crawl_pages_aux fetch (m + 1) page acc
            = crawl_pages_aux fetch m (page + 1) (acc ++ docs page) := by
          simp [crawl_pages_aux, hfetch]
        rw [hstep, ih (page + 1) (acc ++ docs page) hlt (by omega)
          (fun q hq1 hq2 => h3 q (by omega) hq2)]
        have hn : k - page = (k - (page + 1)) + 1 := by omega
        rw [hn]
        simp only [pagesConcat, List.append_assoc]

theorem upsert_cafes_f_aux_none (i : Nat) (s : Store) (cafes : List CafeDoc) :
    upsert_cafes_f_aux none i s cafes
      = ((upsert_cafes s cafes).1,
         some ((upsert_cafes s cafes).2.1, (upsert_cafes s cafes).2.2)) := by
  induction cafes generalizing i s with
  | nil => rfl
  | cons c rest ih =>
      simp only [upsert_cafes_f_aux]
      rw [if_neg (by simp)]
      rw [ih (i + 1) (upsert_one s c).1]
      simp only [upsert_cafes]
      cases h2 : (upsert_one s c).2 <;> simp [h2]

theorem upsert_cafes_f_none (s : Store) (cafes : List CafeDoc) :
    upsert_cafes_f none s cafes
      = ((upsert_cafes s cafes).1,
         some ((upsert_cafes s cafes).2.1, (upsert_cafes s cafes).2.2)) :=
  upsert_cafes_f_aux_none 0 s cafes

theorem runCrawl_single_ok {z : ZoneInput} {out : List CafeDoc} (s : Store)
    (hc : collect z = some out) (hf : z.failAt = none) :
    runCrawl [z] s = ((upsert_cafes s out).1,
      { total_fetched := out.length, inserted := (upsert_cafes s out).2.1,
        updated := (upsert_cafes s out).2.2, failed_districts := [] }) := by
  simp only [runCrawl, runCrawlAux, hc, hf, upsert_cafes_f_none]
  simp

/-- C6: Early termination on fetch failure. If pages `1 .. k-1` succeed with
the end flag unset and the fetch of page `k` (within the page bound) raises,
the collector's pagination stops there: the accumulated raw stream is exactly
the concatenation of pages `1 .. k-1`; and whenever normalization of that
partial stream succeeds, the zone is still reconciled into the store by `run`
(counted in the totals, absent from `failed_districts`) rather than dropped. -/
theorem claim_C6_early_termination (fetch : Nat → FetchOutcome)
    (docs : Nat → List RawPlace) (k : Nat)
    (hk1 : 1 ≤ k) (hk2 : k ≤ MAX_PAGE)
    (hprev : ∀ q, 1 ≤ q → q < k → fetch q = .ok (docs q) false)
    (hfail : fetch k = .err) :
    crawl_pages fetch = pagesConcat docs 1 (k - 1) ∧
    ∀ (name : String) (now : Nat) (out : List CafeDoc) (s : Store),
      crawl_district fetch name now = some out →
      runCrawl [{ name := name, fetch := fetch, now := now, failAt := none }] s
        = ((upsert_cafes s out).1,
           { total_fetched := out.length,
             inserted := (upsert_cafes s out).2.1,
             updated := (upsert_cafes s out).2.2,
             failed_districts := [] }) := by
  constructor
  · unfold crawl_pages
    have hmax : k < 1 + MAX_PAGE := by
      unfold MAX_PAGE at hk2 ⊢
      omega
    rw [crawl_pages_aux_err docs hfail MAX_PAGE 1 [] hk1 hmax
      (fun q h1 h2 => hprev q h1 h2)]
    simp
  · intro name now out s hc
    exact runCrawl_single_ok s hc rfl

/-- Witness for C6: pages 1-2 return one record each, page 3 raises; the two
records are collected, reconciled (2 inserted), and the zone is not failed. -/
theorem claim_C6_witness :
    crawl_pages fetchP3 = pagesConcat exDocsP 1 2 ∧
    runCrawl [{ name := "P", fetch := fetchP3, now := 3, failAt := none }] []
      = ((upsert_cafes [] [exDocP1, exDocP2]).1,
         { total_fetched := 2,
           inserted := (upsert_cafes [] [exDocP1, exDocP2]).2.1,
           updated := (upsert_cafes [] [exDocP1, exDocP2]).2.2,
           failed_districts := [] }) := by
  have h := claim_C6_early_termination fetchP3 exDocsP 3 (by decide) (by decide)
    (by
      intro q h1 h2
      simp [fetchP3, h2])
    (by decide)
  refine ⟨h.1, ?_⟩
  have h2 := h.2 "P" 3 [exDocP1, exDocP2] [] (by decide)
  simpa using h2

theorem runCrawlAux_acc (zs : List ZoneInput) (s : Store) (res : CrawlResult) :
    runCrawlAux zs s res = ((runCrawl zs s).1, resAdd res (runCrawl zs s).2) := by
  induction zs generalizing s res with
  | nil =>
      simp [runCrawlAux, runCrawl, resAdd]
  | cons z zs ih =>
      cases hc : collect z with
      | none =>
          have h1 : ∀ (t : Store) (r : CrawlResult), runCrawlAux (z :: zs) t r
              = runCrawlAux zs t
                  { r with failed_districts := r.failed_districts ++ [z.name] } := by
            intro t r
            simp [runCrawlAux, hc]
          simp only [runCrawl]
          rw [h1, h1, ih, ih]
          simp [resAdd, List.append_assoc, Nat.add_assoc]
      | some cafes =>
          cases hu : upsert_cafes_f z.failAt s cafes with
          | mk s2 copt =>
              cases copt with
              | none =>
                  have h1 : ∀ (r : CrawlResult), runCrawlAux (z :: zs) s r
                      = runCrawlAux zs s2
                          { r with total_fetched := r.total_fetched + cafes.length,
                                   failed_districts := r.failed_districts ++ [z.name] } := by
                    intro r
                    simp [runCrawlAux, hc, hu]
                  simp only [runCrawl]
                  rw [h1, h1, ih, ih]
                  simp [resAdd, List.append_assoc, Nat.add_assoc]
              | some p =>
                  rcases p with ⟨ins, upd⟩
                  have h1 : ∀ (r : CrawlResult), runCrawlAux (z :: zs) s r
                      = runCrawlAux zs s2
                          { r with total_fetched := r.total_fetched + cafes.length,
                                   inserted := r.inserted + ins,
                                   updated := r.updated + upd } := by
                    intro r
                    simp [runCrawlAux, hc, hu]
                  simp only [runCrawl]
                  rw [h1, h1, ih, ih]
                  simp [resAdd, List.append_assoc, Nat.add_assoc]

theorem runCrawl_filter_ok :
    ∀ (zones : List ZoneInput), (∀ z ∈ zones, z.failAt = none) → ∀ (s : Store),
      runCrawl zones s
        = ((runCrawl (zones.filter (fun z => (collect z).isSome)) s).1,
           { total_fetched :=
               (runCrawl (zones.filter (fun z => (collect z).isSome)) s).2.total_fetched,
             inserted :=
               (runCrawl (zones.filter (fun z => (collect z).isSome)) s).2.inserted,
             updated :=
               (runCrawl (zones.filter (fun z => (collect z).isSome)) s).2.updated,
             failed_districts :=
               (zones.filter (fun z => (collect z).isNone)).map (fun z => z.name) }) := by
  intro zones
  induction zones with
  | nil =>
      intro _ s
      simp [runCrawl, runCrawlAux]
  | cons z zs ih =>
      intro hfa s
      have hz : z.failAt = none := hfa z (by simp)
      have hrest : ∀ w ∈ zs, w.failAt = none := fun w hw => hfa w (by simp [hw])
      cases hc : collect z with
      | none =>
          have hfilter1 : (z :: zs).filter (fun w => (collect w).isSome)
              = zs.filter (fun w => (collect w).isSome) := by
            simp [List.filter_cons, hc]
          have hfilter2 : (z :: zs).filter (fun w => (collect w).isNone)
              = z :: zs.filter (fun w => (collect w).isNone) := by
            simp [List.filter_cons, hc]
          have hL : runCrawl (z :: zs) s
              = runCrawlAux zs s
                  { total_fetched := 0, inserted := 0, updated := 0,
                    failed_districts := [z.name] } := by
            simp [runCrawl, runCrawlAux, hc]
          rw [hfilter1, hfilter2, hL, runCrawlAux_acc, ih hrest s]
          simp [resAdd]
      | some cafes =>
          have hfilter1 : (z :: zs).filter (fun w => (collect w).isSome)
              = z :: zs.filter (fun w => (collect w).isSome) := by
            simp [List.filter_cons, hc]
          have hfilter2 : (z :: zs).filter (fun w => (collect w).isNone)
              = zs.filter (fun w => (collect w).isNone) := by
            simp [List.filter_cons, hc]
          have hL : runCrawl (z :: zs) s
              = runCrawlAux zs (upsert_cafes s cafes).1
                  { total_fetched := cafes.length,
                    inserted := (upsert_cafes s cafes).2.1,
                    updated := (upsert_cafes s cafes).2.2,
                    failed_districts := [] } := by
            simp [runCrawl, runCrawlAux, hc, hz, upsert_cafes_f_none]
          rw [hfilter1, hfilter2, hL, runCrawlAux_acc, ih hrest]
          rw [show runCrawl (z :: zs.filter (fun w => (collect w).isSome)) s
              = runCrawlAux (zs.filter (fun w => (collect w).isSome))
                  (upsert_cafes s cafes).1
                  { total_fetched := cafes.length,
                    inserted := (upsert_cafes s cafes).2.1,
                    updated := (upsert_cafes s cafes).2.2,
                    failed_districts := [] } from by
            simp [runCrawl, runCrawlAux, hc, hz, upsert_cafes_f_none]]
          rw [runCrawlAux_acc]
          simp [resAdd]

/-- C7 (amended): failure isolation for collection failures. When the store
accepts every write, `run` never propagates a zone error: the failed zones
(those whose collection raises) are listed by name in catalog order, the
store and the three counters equal those of the run on the collectable zones
alone, and a complete summary is always produced — when every zone fails the
counts are zero and every zone is listed. (A zone whose reconciliation
raises is also isolated and recorded, but its batch still enters
`total_fetched` and its partial writes persist, so the totals are then not
as if the zone were absent — see the counterexample.) -/
theorem claim_C7_failure_isolation (zones : List ZoneInput) (s : Store)
    (hfa : ∀ z ∈ zones, z.failAt = none) :
    (runCrawl zones s
      = ((runCrawl (zones.filter (fun z => (collect z).isSome)) s).1,
         { total_fetched :=
             (runCrawl (zones.filter (fun z => (collect z).isSome)) s).2.total_fetched,
           inserted :=
             (runCrawl (zones.filter (fun z => (collect z).isSome)) s).2.inserted,
           updated :=
             (runCrawl (zones.filter (fun z => (collect z).isSome)) s).2.updated,
           failed_districts :=
             (zones.filter (fun z => (collect z).isNone)).map (fun z => z.name) }))
    ∧ ((∀ z ∈ zones, collect z = none) →
        runCrawl zones s
          = (s, { total_fetched := 0, inserted := 0, updated := 0,
                  failed_districts := zones.map (fun z => z.name) })) := by
  refine ⟨runCrawl_filter_ok zones hfa s, ?_⟩
  intro hall
  have h1 : zones.filter (fun z => (collect z).isSome) = [] := by
    rw [List.filter_eq_nil_iff]
    intro z hz
    simp [hall z hz]
  have h2 : zones.filter (fun z => (collect z).isNone) = zones := by
    rw [List.filter_eq_self]
    intro z hz
    simp [hall z hz]
  rw [runCrawl_filter_ok zones hfa s, h1, h2]
  simp [runCrawl, runCrawlAux]

/-- Counterexample to C7 as stated: zone "A" collects two records but its
reconciliation raises at the second one; "A" is recorded as failed and the
run continues, but the totals are NOT as if "A" were absent: `total_fetched`
is 3 instead of 1, and zone "B"'s record is classified as updated instead of
inserted because "A"'s partial write (id "k") survives in the store. -/
theorem claim_C7_counterexample :
    (runCrawl [zoneAfail, zoneKB] []).2
      = { total_fetched := 3, inserted := 0, updated := 1,
          failed_districts := ["A"] } ∧
    (runCrawl [zoneKB] []).2
      = { total_fetched := 1, inserted := 1, updated := 0,
          failed_districts := [] } := by
  constructor
  · decide
  · decide

/-- Witness for C7 at a concrete catalog: zone "Z" fails collection (a raw
record lacks its id), zone "A" collects fine; the summary equals the
one-zone run's with "Z" prepended to the failed list. -/
theorem claim_C7_witness :
    runCrawl [zoneZnoid, zoneKA] []
      = ((runCrawl ([zoneZnoid, zoneKA].filter (fun z => (collect z).isSome)) []).1,
         { total_fetched :=
             (runCrawl ([zoneZnoid, zoneKA].filter (fun z => (collect z).isSome)) []).2.total_fetched,
           inserted :=
             (runCrawl ([zoneZnoid, zoneKA].filter (fun z => (collect z).isSome)) []).2.inserted,
           updated :=
             (runCrawl ([zoneZnoid, zoneKA].filter (fun z => (collect z).isSome)) []).2.updated,
           failed_districts :=
             ([zoneZnoid, zoneKA].filter (fun z => (collect z).isNone)).map
               (fun z => z.name) }) :=
  (claim_C7_failure_isolation [zoneZnoid, zoneKA] []
    (by intro z hz; fin_cases hz <;> rfl)).1

/-- Counterexample to C3 as stated: the code does not record zone "B" as
failed — the transport error is swallowed inside the collector and yields an
empty batch, so the summary differs from the spec's expected one. -/
theorem claim_C3_counterexample :
    (runCrawl [zoneA, zoneBerr] []).2
      ≠ { total_fetched := 3, inserted := 3, updated := 0,
          failed_districts := ["B"] } := by
  decide

/-- C3 (amended): in the two-zone scenario (zone A: 3 unique records on page
1 with the end flag; zone B: transport error on its first page call, against
an empty store) the summary is total_fetched 3, inserted 3, updated 0 and an
empty failed-zone list. -/
theorem claim_C3_end_to_end :
    (runCrawl [zoneA, zoneBerr] []).2
      = { total_fetched := 3, inserted := 3, updated := 0,
          failed_districts := [] } := by
  decide

theorem dedup_none_of_noid {name : String} {now : Nat} {places : List RawPlace}
    {p : RawPlace} (hp : p ∈ places) (hid : p.id = none) :
    ∀ seen, dedup_build name now places seen = none := by
  induction places with
  | nil => cases hp
  | cons q rest ih =>
      intro seen
      rw [dedup_build_cons]
      cases hq : q.id with
      | none => simp
      | some qid =>
          have hp2 : p ∈ rest := by
            rcases List.mem_cons.mp hp with h1 | h2
            · exfalso
              rw [h1, hq] at hid
              cases hid
            · exact h2
          simp only
          by_cases hmem : qid ∈ seen
          · rw [if_pos hmem]
            exact ih hp2 seen
          · rw [if_neg hmem]
            cases hb : build_cafe_doc q name now with
            | none => simp
            | some doc =>
                simp only
                rw [ih hp2 (qid :: seen)]
                rfl

theorem dedup_none_of_first_bad {name : String} {now : Nat} :
    ∀ (pre : List RawPlace) (p : RawPlace) (post : List RawPlace)
      (seen : List String) (pid : String),
      p.id = some pid → pid ∉ seen → (∀ q ∈ pre, q.id ≠ some pid) →
      (p.place_name = none ∨ p.x = none ∨ p.y = none) →
      dedup_build name now (pre ++ p :: post) seen = none := by
  intro pre
  induction pre with
  | nil =>
      intro p post seen pid hid hmem hpre hbad
      rw [List.nil_append, dedup_build_cons]
      simp only [hid]
      rw [if_neg hmem, build_none_of_missing name now hbad]
  | cons q pre ih =>
      intro p post seen pid hid hmem hpre hbad
      rw [List.cons_append, dedup_build_cons]
      cases hq : q.id with
      | none => simp
      | some qid =>
          simp only
          have hqp : qid ≠ pid := by
            intro he
            exact hpre q (by simp) (by rw [hq, he])
          by_cases hm : qid ∈ seen
          · rw [if_pos hm]
            exact ih p post seen pid hid hmem (fun r hr => hpre r (by simp [hr])) hbad
          · rw [if_neg hm]
            cases hb : build_cafe_doc q name now with
            | none => simp
            | some doc =>
                simp only
                have hmem2 : pid ∉ qid :: seen := by
                  intro hm2
                  rcases List.mem_cons.mp hm2 with h1 | h2
                  · exact hqp h1.symm
                  · exact hmem h2
                rw [ih p post (qid :: seen) pid hid hmem2
                  (fun r hr => hpre r (by simp [hr])) hbad]
                rfl

theorem crawl_district_none_of_bad {fetch : Nat → FetchOutcome}
    {name : String} {now : Nat}
    (hbad : ∃ pre p post, crawl_pages fetch = pre ++ p :: post ∧
      (p.id = none ∨ ∃ pid, p.id = some pid ∧ (∀ q ∈ pre, q.id ≠ some pid) ∧
        (p.place_name = none ∨ p.x = none ∨ p.y = none))) :
    crawl_district fetch name now = none := by
  rcases hbad with ⟨pre, p, post, heq, hcase⟩
  unfold crawl_district
  rw [heq]
  rcases hcase with h1 | ⟨pid, hid, hpre, hmiss⟩
  · exact dedup_none_of_noid (by simp) h1 []
  · exact dedup_none_of_first_bad pre p post [] pid hid (by simp) hpre hmiss

/-- C9 (amended): if some raw record accumulated for a zone lacks its
external id, or the first accumulated record carrying a given id lacks the
name or a coordinate, then normalization raises, `run` records the zone as
failed, and the store ends as if the failing zones were absent (none of the
zone's records — well-formed ones included — are written; other zones are
unaffected). A malformed record whose id duplicates an earlier well-formed
record is skipped silently instead (see the counterexample). -/
theorem claim_C9_malformed_record (zones : List ZoneInput) (z : ZoneInput)
    (s : Store) (hz : z ∈ zones) (hfa : ∀ w ∈ zones, w.failAt = none)
    (hbad : ∃ pre p post, crawl_pages z.fetch = pre ++ p :: post ∧
      (p.id = none ∨ ∃ pid, p.id = some pid ∧ (∀ q ∈ pre, q.id ≠ some pid) ∧
        (p.place_name = none ∨ p.x = none ∨ p.y = none))) :
    collect z = none ∧
    z.name ∈ (runCrawl zones s).2.failed_districts ∧
    (runCrawl zones s).1
      = (runCrawl (zones.filter (fun w => (collect w).isSome)) s).1 := by
  have hnone : collect z = none := crawl_district_none_of_bad hbad
  refine ⟨hnone, ?_, ?_⟩
  · rw [runCrawl_filter_ok zones hfa s]
    exact List.mem_map.mpr ⟨z, List.mem_filter.mpr ⟨hz, by simp [hnone]⟩, rfl⟩
  · rw [runCrawl_filter_ok zones hfa s]

/-- Counterexample to C9 as stated: zone "Z"'s accumulated stream contains a
raw record with id "a1" but no name; because a well-formed "a1" record came
first, the zone does NOT fail — the malformed duplicate is skipped, the
well-formed record is stored, and no zone is listed as failed. -/
theorem claim_C9_counterexample :
    (∃ p ∈ crawl_pages zoneZdup.fetch, p.id = some "a1" ∧ p.place_name = none) ∧
    (runCrawl [zoneZdup] []).2.failed_districts = [] ∧
    (runCrawl [zoneZdup] []).2.inserted = 1 := by
  refine ⟨⟨exBadDup, by decide, rfl, rfl⟩, by decide, by decide⟩

/-- Witness for C9: zone "Z" serves a single record with no id; the zone
fails, appears in the failed list, and contributes nothing to the store. -/
theorem claim_C9_witness :
    collect zoneZnoid = none ∧
    zoneZnoid.name ∈ (runCrawl [zoneZnoid, zoneKA] []).2.failed_districts ∧
    (runCrawl [zoneZnoid, zoneKA] []).1
      = (runCrawl ([zoneZnoid, zoneKA].filter (fun w => (collect w).isSome)) []).1 :=
  claim_C9_malformed_record [zoneZnoid, zoneKA] zoneZnoid []
    (List.mem_cons_self _ _)
    (by intro w hw; fin_cases hw <;> rfl)
    ⟨[], exNoId, [], by decide, Or.inl rfl⟩

/-- C10: normalization stamps the constant category and provider tag. Every
normalized record has `category_code = "CE7"` and `source = "kakao"`,
whatever the raw record carries; the raw record's own category code field is
never read — changing it cannot change the output. -/
theorem claim_C10_constant_category (place : RawPlace) (district : String)
    (now : Nat) :
    (∀ doc, build_cafe_doc place district now = some doc →
        doc.category_code = CAFE_CATEGORY_CODE ∧ doc.source = "kakao") ∧
    (∀ v, build_cafe_doc { place with category_group_code := v } district now
        = build_cafe_doc place district now) := by
  constructor
  · intro doc h
    have hf := build_fields h
    exact ⟨hf.2.2.1, hf.2.1⟩
  · intro v
    rfl

/-- Witness for C10 at a concrete record: the output carries "CE7"/"kakao",
and overwriting the raw category code (e.g. with "FD6") changes nothing. -/
theorem claim_C10_witness :
    (∃ doc, build_cafe_doc (exPlace "w" "W") "D" 1 = some doc ∧
        doc.category_code = CAFE_CATEGORY_CODE ∧ doc.source = "kakao") ∧
    build_cafe_doc { exPlace "w" "W" with category_group_code := some "FD6" } "D" 1
      = build_cafe_doc (exPlace "w" "W") "D" 1 := by
  have h := claim_C10_constant_category (exPlace "w" "W") "D" 1
  refine ⟨?_, h.2 (some "FD6")⟩
  cases hb : build_cafe_doc (exPlace "w" "W") "D" 1 with
  | none => exact absurd hb (by decide)
  | some doc => exact ⟨doc, rfl, h.1 doc hb⟩

theorem getLast?_cons_eq {α : Type} (x : α) (l : List α) :
    (x :: l).getLast?
      = match l.getLast? with
        | some y => some y
        | none => some x := by
  induction l generalizing x with
  | nil => rfl
  | cons a l2 ih =>
      rw [List.getLast?_cons_cons, ih a]
      cases h : l2.getLast? <;> rfl

theorem lastFor_isSome_iff_any (cafes : List CafeDoc) (k : String) :
    (lastFor cafes k).isSome = cafes.any (fun c => c.kakao_id == k) := by
  induction cafes with
  | nil => rfl
  | cons c rest ih =>
      rw [lastFor_cons]
      cases h : lastFor rest k with
      | some y =>
          simp only [List.any_cons, ← ih, h]
          simp
      | none =>
          simp only [List.any_cons, ← ih, h]
          cases hp : (c.kakao_id == k) <;> simp [hp]

theorem runCrawl_store_cons {z : ZoneInput} {zs : List ZoneInput} {s : Store}
    {cafes : List CafeDoc}
    (hc : collect z = some cafes) (hz : z.failAt = none) :
    (runCrawl (z :: zs) s).1 = (runCrawl zs (upsert_cafes s cafes).1).1 := by
  have hL : runCrawl (z :: zs) s
      = runCrawlAux zs (upsert_cafes s cafes).1
          { total_fetched := cafes.length,
            inserted := (upsert_cafes s cafes).2.1,
            updated := (upsert_cafes s cafes).2.2,
            failed_districts := [] } := by
    simp [runCrawl, runCrawlAux, hc, hz, upsert_cafes_f_none]
  rw [hL, runCrawlAux_acc]

theorem runCrawl_findRow_none (b : ZoneInput → List CafeDoc) (k : String) :
    ∀ (zones : List ZoneInput) (s : Store),
      (∀ z ∈ zones, collect z = some (b z)) →
      (∀ z ∈ zones, z.failAt = none) →
      zones.filter (fun z => (b z).any (fun c => c.kakao_id == k)) = [] →
      findRow (runCrawl zones s).1 k = findRow s k := by
  intro zones
  induction zones with
  | nil => intro s _ _ _; rfl
  | cons z zs ih =>
      intro s hb hfa hfilter
      have hbz : collect z = some (b z) := hb z (by simp)
      have hz : z.failAt = none := hfa z (by simp)
      have hbr : ∀ w ∈ zs, collect w = some (b w) := fun w hw => hb w (by simp [hw])
      have hfr : ∀ w ∈ zs, w.failAt = none := fun w hw => hfa w (by simp [hw])
      rw [List.filter_cons] at hfilter
      by_cases hp : ((b z).any (fun c => c.kakao_id == k)) = true
      · rw [if_pos hp] at hfilter
        cases hfilter
      · rw [if_neg hp] at hfilter
        have hlf : lastFor (b z) k = none := by
          cases hl : lastFor (b z) k with
          | none => rfl
          | some c =>
              exfalso
              apply hp
              rw [← lastFor_isSome_iff_any, hl]
              rfl
        rw [runCrawl_store_cons hbz hz, ih (upsert_cafes s (b z)).1 hbr hfr hfilter]
        exact findRow_upsert_cafes_none hlf s

theorem runCrawl_findRow_last (b : ZoneInput → List CafeDoc) (k : String) :
    ∀ (zones : List ZoneInput) (s : Store) (zL : ZoneInput),
      (∀ z ∈ zones, collect z = some (b z)) →
      (∀ z ∈ zones, z.failAt = none) →
      (zones.filter (fun z => (b z).any (fun c => c.kakao_id == k))).getLast?
        = some zL →
      ∃ c, lastFor (b zL) k = some c ∧
        (findRow (runCrawl zones s).1 k).map (fun r => r.doc) = some c := by
  intro zones
  induction zones with
  | nil => intro s zL _ _ h; cases h
  | cons z zs ih =>
      intro s zL hb hfa hlast
      have hbz : collect z = some (b z) := hb z (by simp)
      have hz : z.failAt = none := hfa z (by simp)
      have hbr : ∀ w ∈ zs, collect w = some (b w) := fun w hw => hb w (by simp [hw])
      have hfr : ∀ w ∈ zs, w.failAt = none := fun w hw => hfa w (by simp [hw])
      rw [List.filter_cons] at hlast
      by_cases hp : ((b z).any (fun c => c.kakao_id == k)) = true
      · rw [if_pos hp, getLast?_cons_eq] at hlast
        cases hrest : (zs.filter (fun w => (b w).any (fun c => c.kakao_id == k))).getLast? with
        | some zL2 =>
            rw [hrest] at hlast
            simp only at hlast
            injection hlast with h2
            subst h2
            rw [runCrawl_store_cons hbz hz]
            exact ih (upsert_cafes s (b z)).1 zL2 hbr hfr hrest
        | none =>
            rw [hrest] at hlast
            simp only at hlast
            injection hlast with h2
            subst h2
            have hfilter : zs.filter (fun w => (b w).any (fun c => c.kakao_id == k)) = [] := by
              cases hf : zs.filter (fun w => (b w).any (fun c => c.kakao_id == k)) with
              | nil => rfl
              | cons a l =>
                  exfalso
                  rw [hf, getLast?_cons_eq] at hrest
                  cases h2 : l.getLast? with
                  | some y => rw [h2] at hrest; cases hrest
                  | none => rw [h2] at hrest; cases hrest
            have hlf : (lastFor (b z) k).isSome := by
              rw [lastFor_isSome_iff_any]
              exact hp
            rcases Option.isSome_iff_exists.mp hlf with ⟨c, hc⟩
            refine ⟨c, hc, ?_⟩
            rw [runCrawl_store_cons hbz hz,
                runCrawl_findRow_none b k zs _ hbr hfr hfilter]
            rcases findRow_upsert_cafes_last hc s with ⟨n, hn⟩
            rw [hn]
            rfl
      · rw [if_neg hp] at hlast
        rw [runCrawl_store_cons hbz hz]
        exact ih (upsert_cafes s (b z)).1 zL hbr hfr hlast

theorem mem_of_getLast?_eq {α : Type} :
    ∀ {l : List α} {a : α}, l.getLast? = some a → a ∈ l := by
  intro l
  induction l with
  | nil => intro a h; cases h
  | cons x l2 ih =>
      intro a h
      rw [getLast?_cons_eq] at h
      cases h2 : l2.getLast? with
      | some y =>
          rw [h2] at h
          injection h with h3
          subst h3
          exact List.mem_cons_of_mem _ (ih h2)
      | none =>
          rw [h2] at h
          injection h with h3
          subst h3
          exact List.mem_cons_self _ _

theorem lastP_mem {α : Type} {p : α → Bool} :
    ∀ {l : List α} {y : α}, lastP p l = some y → y ∈ l ∧ p y = true := by
  intro l
  induction l with
  | nil => intro y h; cases h
  | cons x l2 ih =>
      intro y h
      simp only [lastP] at h
      cases h2 : lastP p l2 with
      | some a =>
          rw [h2] at h
          injection h with h3
          subst h3
          rcases ih h2 with ⟨hm, hp⟩
          exact ⟨List.mem_cons_of_mem _ hm, hp⟩
      | none =>
          rw [h2] at h
          by_cases hx : p x = true
          · rw [if_pos hx] at h
            injection h with h3
            subst h3
            exact ⟨List.mem_cons_self _ _, hx⟩
          · rw [if_neg hx] at h
            cases h

theorem uniq_runCrawl_ok :
    ∀ (zones : List ZoneInput) (s : Store),
      (∀ z ∈ zones, z.failAt = none) → UniqIds s →
      UniqIds (runCrawl zones s).1 := by
  intro zones
  induction zones with
  | nil => intro s _ h; exact h
  | cons z zs ih =>
      intro s hfa h
      have hz : z.failAt = none := hfa z (by simp)
      have hrest : ∀ w ∈ zs, w.failAt = none := fun w hw => hfa w (by simp [hw])
      cases hc : collect z with
      | none =>
          have hL : (runCrawl (z :: zs) s).1 = (runCrawl zs s).1 := by
            have hstep : runCrawl (z :: zs) s
                = runCrawlAux zs s
                    { total_fetched := 0, inserted := 0, updated := 0,
                      failed_districts := [z.name] } := by
              simp [runCrawl, runCrawlAux, hc]
            rw [hstep, runCrawlAux_acc]
          rw [hL]
          exact ih s hrest h
      | some cafes =>
          rw [runCrawl_store_cons hc hz]
          exact ih _ hrest (uniq_upsert_cafes h cafes)

theorem count_one_of_uniq {s : Store} {k : String} (hu : UniqIds s)
    {r : StoredRow} (h : findRow s k = some r) :
    (s.filter (fun r2 => r2.doc.kakao_id == k)).length = 1 := by
  induction s with
  | nil => cases h
  | cons a rest ih =>
      have hu' : (a.doc.kakao_id :: storeIds rest).Nodup := by
        simpa [UniqIds, storeIds] using hu
      have hu2 : UniqIds rest := by
        have := (List.nodup_cons.mp hu').2
        simpa [UniqIds, storeIds] using this
      by_cases ha : a.doc.kakao_id = k
      · have hnk : k ∉ storeIds rest := by
          have hni := (List.nodup_cons.mp hu').1
          rw [ha] at hni
          exact hni
        have hrest : rest.filter (fun r2 => r2.doc.kakao_id == k) = [] := by
          rw [List.filter_eq_nil_iff]
          intro r2 hr2
          simp only [beq_iff_eq]
          intro he
          exact hnk (he ▸ List.mem_map.mpr ⟨r2, hr2, rfl⟩)
        simp [List.filter_cons, ha, hrest]
      · have h2 : findRow rest k = some r := by
          simpa [findRow, ha] using h
        have hb : (a.doc.kakao_id == k) = false := by simpa using ha
        simp only [List.filter_cons, hb, Bool.false_eq_true, if_false]
        exact ih hu2 h2

/-- C2 (amended): cross-zone deduplication with last-zone attribution. For a
record whose external id is reported by more than one zone in the same run
(all zones collecting successfully, the store accepting every write and
starting with unique ids), the store ends the run with exactly one row for
that id, and that row's zone field is the name of the LAST zone in catalog
order that reported it — each later zone's upsert overwrites the zone field,
so attribution is not to the first zone (see the counterexample). -/
theorem claim_C2_cross_zone_attribution (zones : List ZoneInput)
    (b : ZoneInput → List CafeDoc) (k : String) (s : Store)
    (hs : UniqIds s)
    (hb : ∀ z ∈ zones, collect z = some (b z))
    (hfa : ∀ z ∈ zones, z.failAt = none)
    (hrep : 2 ≤ (zones.filter (fun z => (b z).any (fun c => c.kakao_id == k))).length) :
    (((runCrawl zones s).1).filter (fun r => r.doc.kakao_id == k)).length = 1 ∧
    ∃ zL r,
      (zones.filter (fun z => (b z).any (fun c => c.kakao_id == k))).getLast?
        = some zL ∧
      findRow (runCrawl zones s).1 k = some r ∧ r.doc.district = zL.name := by
  obtain ⟨zL, hzL⟩ :
      ∃ zL, (zones.filter (fun z => (b z).any (fun c => c.kakao_id == k))).getLast?
        = some zL := by
    cases hf : zones.filter (fun z => (b z).any (fun c => c.kakao_id == k)) with
    | nil =>
        rw [hf] at hrep
        simp at hrep
    | cons a l =>
        rw [getLast?_cons_eq]
        cases h2 : l.getLast? with
        | some y => exact ⟨y, rfl⟩
        | none => exact ⟨a, rfl⟩
  rcases runCrawl_findRow_last b k zones s zL hb hfa hzL with ⟨c, hc, hdoc⟩
  cases hr : findRow (runCrawl zones s).1 k with
  | none =>
      rw [hr] at hdoc
      cases hdoc
  | some r =>
      rw [hr] at hdoc
      simp only [Option.map_some'] at hdoc
      injection hdoc with hdoc2
      have huniq : UniqIds (runCrawl zones s).1 := uniq_runCrawl_ok zones s hfa hs
      refine ⟨count_one_of_uniq huniq hr, zL, r, hzL, rfl, ?_⟩
      have hzLmem : zL ∈ zones := (List.mem_filter.mp (mem_of_getLast?_eq hzL)).1
      have hcmem : c ∈ b zL := (lastP_mem hc).1
      have hstamp := dedup_stamp
        (show dedup_build zL.name zL.now (crawl_pages zL.fetch) [] = some (b zL)
          from hb zL hzLmem) c hcmem
      rw [hdoc2]
      exact hstamp.1

/-- Counterexample to C2 as stated: id "k" is reported by zone "A" (first)
and zone "B" (second); the stored row's zone field ends as "B" — the last
reporting zone — not "A", because the second upsert's overwrite includes the
zone field. -/
theorem claim_C2_counterexample :
    ((findRow (runCrawl [zoneKA, zoneKB] []).1 "k").map (fun r => r.doc.district)
        = some "B") ∧
    ¬ ((findRow (runCrawl [zoneKA, zoneKB] []).1 "k").map (fun r => r.doc.district)
        = some "A") := by
  constructor
  · decide
  · decide

/-- Witness for C2: zones "A" and "B" both report "k"; the final store has
one row for "k" and its zone field is the last reporter's name. -/
theorem claim_C2_witness :
    (((runCrawl [zoneKA, zoneKB] []).1).filter
        (fun r => r.doc.kakao_id == "k")).length = 1 ∧
    ∃ zL r,
      ([zoneKA, zoneKB].filter
          (fun z => (exBatch z).any (fun c => c.kakao_id == "k"))).getLast?
        = some zL ∧
      findRow (runCrawl [zoneKA, zoneKB] []).1 "k" = some r ∧
      r.doc.district = zL.name :=
  claim_C2_cross_zone_attribution [zoneKA, zoneKB] exBatch "k" []
    (by unfold UniqIds storeIds; simp)
    (by intro z hz; fin_cases hz <;> decide)
    (by intro z hz; fin_cases hz <;> rfl)
    (by decide)
